import Mathlib

/-!
Shallow embedding of `scripts/update-conversion-rates.py` (the Transformer and
Merger core of the conversion-rates update utility), together with proofs of
the specified properties.

Python dictionaries are modelled as insertion-ordered association lists:
`dictInsert` replaces the value in place when the key is present (keeping its
position, as CPython does) and appends the new binding at the end otherwise.
Python floats appearing in the data are modelled as rational numbers: the
script only stores, compares and truthiness-tests them, never does arithmetic.
JSON fields that may be absent or null are modelled as `Option`.
-/

namespace ConvRates

/-- A Python dict whose keys are strings: an association list in insertion
order, with unique keys maintained by `dictInsert`. -/
abbrev Dict (β : Type) := List (String × β)

/-- `d[k] = v` on a Python dict: replace in place if `k` is present, else
append the binding at the end. -/
def dictInsert {β : Type} (k : String) (v : β) : Dict β → Dict β
  | [] => [(k, v)]
  | p :: rest => if p.1 = k then (k, v) :: rest else p :: dictInsert k v rest

/-- `d.get(k)` / `d[k]` lookup on a Python dict. -/
def dictGet? {β : Type} (k : String) : Dict β → Option β
  | [] => none
  | p :: rest => if p.1 = k then some p.2 else dictGet? k rest

/-- Lookup with a default value. -/
def dictGetD {β : Type} (k : String) (d : Dict β) (dflt : β) : β :=
  (dictGet? k d).getD dflt

/-- The key list of a dict (in insertion order). -/
def dictKeys {β : Type} (d : Dict β) : List String :=
  d.map Prod.fst

/-- Fold a list of key/value pairs into a dict, inserting left to right
(later occurrences of a key overwrite earlier ones). Used both for the dict
comprehension re-keying `existing` and for the update loop in `merge_rates`. -/
def insertAll {β : Type} (base : Dict β) (l : List (String × β)) : Dict β :=
  l.foldl (fun acc p => dictInsert p.1 p.2 acc) base

/-- The value bound to `k` by the LAST pair of `l` that carries key `k`
(`none` when no pair does). Reference function for last-wins semantics. -/
def lookupLast {β : Type} (k : String) : List (String × β) → Option β
  | [] => none
  | p :: rest =>
    match lookupLast k rest with
    | some v => some v
    | none => if p.1 = k then some p.2 else none

/-- A RateSet: mapping from currency code to rate for one date
(`dict[str, float]` in the script). -/
abbrev RateSet := Dict ℚ

/-- Transformer output / `merge_rates` second argument: mapping from date to
RateSet (`dict[str, dict[str, float]]`). -/
abbrev RatesByDate := Dict RateSet

/-- One raw BSI observation as consumed by `transform_bsi_data`: the `date`,
`code` and `value` fields are read with `.get(...)`, so each may be absent
(`none`); JSON null is likewise `none`. -/
structure Obs where
  date : Option String
  code : Option String
  value : Option ℚ
deriving DecidableEq, Repr

/-- One persisted record of `conversion-rates.json`:
`{"date": ..., "rates": {...}}`. -/
structure RateRecord where
  date : String
  rates : RateSet
deriving DecidableEq, Repr

/-- Python truthiness of an optional string field: absent/None and the empty
string are falsy. -/
def truthyStr : Option String → Bool
  | none => false
  | some s => decide (s ≠ "")

/-- Python truthiness of an optional numeric field: absent/None and zero are
falsy. -/
def truthyNum : Option ℚ → Bool
  | none => false
  | some v => decide (v ≠ 0)

/-- The script's validity test `all([date, code, value])` for one observation. -/
def Obs.isValid (o : Obs) : Bool :=
  truthyStr o.date && truthyStr o.code && truthyNum o.value

/-- One iteration of the loop body of `transform_bsi_data`: skip the entry
unless all of date, code, value are truthy, otherwise
`rates_by_date[date][code] = value` (creating `rates_by_date[date]` as an
empty dict first when absent). -/
def transformStep (acc : RatesByDate) (o : Obs) : RatesByDate :=
  match o.date, o.code, o.value with
  | some d, some c, some v =>
    if d = "" ∨ c = "" ∨ v = 0 then acc
    else dictInsert d (dictInsert c v (dictGetD d acc [])) acc
  | _, _, _ => acc

/-- `transform_bsi_data`: fold the observations into a date-keyed mapping of
currency-code-to-rate dicts. -/
def transform_bsi_data (bsi_data : List Obs) : RatesByDate :=
  bsi_data.foldl transformStep []

/-- Python string comparison: lexicographic over the code points of the two
strings, shorter-prefix-first on ties. -/
def charsLe : List Char → List Char → Bool
  | [], _ => true
  | _ :: _, [] => false
  | a :: as, b :: bs => if a < b then true else if b < a then false else charsLe as bs

/-- `a <= b` on Python strings (code-point lexicographic). -/
def strLe (a b : String) : Bool :=
  charsLe a.data b.data

/-- `a < b` on Python strings (code-point lexicographic, strict). -/
def strLt (a b : String) : Bool :=
  strLe a b && ! strLe b a

/-- Descending comparison used by `sorted(existing_by_date.items(),
reverse=True)`: with unique dates the tuple comparison only ever inspects the
date (Python would raise before comparing the rate dicts, and equal dates
cannot occur after the re-keying), and Python string comparison is code-point
lexicographic. -/
def dateDesc (a b : String × RateSet) : Bool :=
  strLe b.1 a.1

/-- First step of `merge_rates`: the dict comprehension
`{entry["date"]: entry["rates"] for entry in existing}`. -/
def existingByDate (existing : List RateRecord) : RatesByDate :=
  insertAll [] (existing.map fun entry => (entry.date, entry.rates))

/-- Second step of `merge_rates`: the loop
`for date, rates in new_rates_by_date.items(): existing_by_date[date] = rates`. -/
def mergedByDate (existing : List RateRecord) (new_rates_by_date : RatesByDate) :
    RatesByDate :=
  insertAll (existingByDate existing) new_rates_by_date

/-- `merge_rates`: re-key `existing` into a dict, overwrite with the new
rates date by date, and emit the records sorted by date descending. -/
def merge_rates (existing : List RateRecord) (new_rates_by_date : RatesByDate) :
    List RateRecord :=
  ((mergedByDate existing new_rates_by_date).mergeSort dateDesc).map
    fun p => { date := p.1, rates := p.2 }

/-- The rate recorded for currency `c` on date `d` in a transformer output. -/
def rateAt (m : RatesByDate) (d c : String) : Option ℚ :=
  (dictGet? d m).bind fun rs => dictGet? c rs

/-- The value of the LAST observation in the list that is valid and carries
date `d` and code `c` (reference function for C5's last-wins property). -/
def lastValueFor (d c : String) : List Obs → Option ℚ
  | [] => none
  | o :: rest =>
    match lastValueFor d c rest with
    | some v => some v
    | none =>
      if o.isValid = true ∧ o.date = some d ∧ o.code = some c then o.value else none

/-- The RateSet of the LAST record in the list whose date is `d`
(reference function for C6's last-wins re-keying property). -/
def lastRatesFor (d : String) : List RateRecord → Option RateSet
  | [] => none
  | e :: rest =>
    match lastRatesFor d rest with
    | some rs => some rs
    | none => if e.date = d then some e.rates else none

unseal List.merge List.mergeSort

example : transform_bsi_data [⟨some "2024-12-30", some "USD", some 2⟩] =
    [("2024-12-30", [("USD", 2)])] := by decide

example : transform_bsi_data [⟨none, some "USD", some 2⟩] = [] := by decide

example :
    merge_rates [⟨"2024-01-01", [("USD", 1)]⟩]
      [("2024-01-01", [("USD", 2), ("GBP", 3)])] =
    [⟨"2024-01-01", [("USD", 2), ("GBP", 3)]⟩] := by decide

example :
    merge_rates [⟨"2024-12-30", [("USD", 1)]⟩]
      [("2024-12-31", [("USD", 2)]), ("2024-12-30", [("USD", 3)])] =
    [⟨"2024-12-31", [("USD", 2)]⟩, ⟨"2024-12-30", [("USD", 3)]⟩] := by
  decide

/-! ### Dictionary lemmas -/

theorem dictGet?_dictInsert_self {β : Type} (k : String) (v : β) (d : Dict β) :
    dictGet? k (dictInsert k v d) = some v := by
  induction d with
  | nil => simp [dictInsert, dictGet?]
  | cons p rest ih =>
    by_cases h : p.1 = k
    · simp [dictInsert, h, dictGet?]
    · simp [dictInsert, h, dictGet?, ih]

theorem dictGet?_dictInsert_ne {β : Type} {k' k : String} (h : k' ≠ k) (v : β)
    (d : Dict β) : dictGet? k' (dictInsert k v d) = dictGet? k' d := by
  have hk : k ≠ k' := Ne.symm h
  induction d with
  | nil => simp [dictInsert, dictGet?, hk]
  | cons p rest ih =>
    by_cases hp : p.1 = k
    · simp [dictInsert, hp, dictGet?, hk]
    · simp [dictInsert, hp, dictGet?, ih]

theorem mem_dictKeys_dictInsert {β : Type} (a k : String) (v : β) (d : Dict β) :
    a ∈ dictKeys (dictInsert k v d) ↔ a ∈ dictKeys d ∨ a = k := by
  induction d with
  | nil => simp [dictInsert, dictKeys]
  | cons p rest ih =>
    by_cases h : p.1 = k
    · subst h
      simp [dictInsert, dictKeys]
      tauto
    · simp [dictInsert, h, dictKeys] at ih ⊢
      tauto

theorem nodup_dictKeys_dictInsert {β : Type} (k : String) (v : β) :
    ∀ d : Dict β, (dictKeys d).Nodup → (dictKeys (dictInsert k v d)).Nodup := by
  intro d
  induction d with
  | nil => intro _; simp [dictInsert, dictKeys]
  | cons p rest ih =>
    intro h
    simp only [dictKeys, List.map_cons, List.nodup_cons] at h
    rcases h with ⟨h1, h2⟩
    by_cases hp : p.1 = k
    · subst hp
      have hins : dictInsert p.1 v (p :: rest) = (p.1, v) :: rest := by
        simp [dictInsert]
      rw [hins]
      simp only [dictKeys, List.map_cons, List.nodup_cons]
      exact ⟨h1, h2⟩
    · have hins : dictInsert k v (p :: rest) = p :: dictInsert k v rest := by
        simp [dictInsert, hp]
      rw [hins]
      simp only [dictKeys, List.map_cons, List.nodup_cons]
      refine ⟨fun hmem => ?_, by simpa [dictKeys] using ih (by simpa [dictKeys] using h2)⟩
      rcases (mem_dictKeys_dictInsert p.1 k v rest).1 (by simpa [dictKeys] using hmem) with
        hmem' | heq
      · exact h1 (by simpa [dictKeys] using hmem')
      · exact hp heq

theorem dictInsert_append_of_not_mem {β : Type} {k : String} (v : β) :
    ∀ {d : Dict β}, k ∉ dictKeys d → dictInsert k v d = d ++ [(k, v)] := by
  intro d
  induction d with
  | nil => intro _; simp [dictInsert]
  | cons p rest ih =>
    intro h
    simp only [dictKeys, List.map_cons, List.mem_cons] at h
    push_neg at h
    have hp : ¬p.1 = k := fun e => h.1 e.symm
    simp only [dictInsert, if_neg hp, List.cons_append, List.cons.injEq, true_and]
    exact ih (by simpa [dictKeys] using h.2)

theorem dictInsert_eq_self_of_get {β : Type} {k : String} {v : β} :
    ∀ {d : Dict β}, dictGet? k d = some v → dictInsert k v d = d := by
  intro d
  induction d with
  | nil => intro h; simp [dictGet?] at h
  | cons p rest ih =>
    intro h
    by_cases hp : p.1 = k
    · simp only [dictGet?, if_pos hp, Option.some.injEq] at h
      simp only [dictInsert, if_pos hp]
      rw [← hp, ← h]
    · simp only [dictGet?, if_neg hp] at h
      simp only [dictInsert, if_neg hp]
      rw [ih h]

theorem mem_of_dictGet?_eq_some {β : Type} {k : String} {v : β} :
    ∀ {d : Dict β}, dictGet? k d = some v → (k, v) ∈ d := by
  intro d
  induction d with
  | nil => intro h; simp [dictGet?] at h
  | cons p rest ih =>
    intro h
    by_cases hp : p.1 = k
    · simp only [dictGet?, if_pos hp, Option.some.injEq] at h
      have heq : (k, v) = p := by rw [← hp, ← h]
      rw [heq]
      exact List.mem_cons_self p rest
    · simp only [dictGet?, if_neg hp] at h
      exact List.mem_cons_of_mem p (ih h)

theorem dictGet?_eq_some_of_mem_of_nodup {β : Type} {k : String} {v : β} :
    ∀ {d : Dict β}, (dictKeys d).Nodup → (k, v) ∈ d → dictGet? k d = some v := by
  intro d
  induction d with
  | nil => intro _ h; simp at h
  | cons p rest ih =>
    intro hnd h
    simp only [dictKeys, List.map_cons, List.nodup_cons] at hnd
    rcases List.mem_cons.1 h with heq | hmem
    · rw [← heq]
      simp [dictGet?]
    · have hk : k ∈ dictKeys rest := by
        simp only [dictKeys, List.mem_map]
        exact ⟨(k, v), hmem, rfl⟩
      have hp : ¬p.1 = k := by
        intro e
        exact hnd.1 (by simpa [dictKeys, e] using hk)
      simp only [dictGet?, if_neg hp]
      exact ih (by simpa [dictKeys] using hnd.2) hmem

theorem lookupLast_eq_none_of_not_mem {β : Type} {k : String} :
    ∀ {l : List (String × β)}, k ∉ l.map Prod.fst → lookupLast k l = none := by
  intro l
  induction l with
  | nil => intro _; rfl
  | cons p rest ih =>
    intro h
    simp only [List.map_cons, List.mem_cons] at h
    push_neg at h
    have hp : ¬p.1 = k := fun e => h.1 e.symm
    simp only [lookupLast, ih h.2, if_neg hp]

theorem lookupLast_eq_some_of_mem_of_nodup {β : Type} {k : String} {v : β} :
    ∀ {l : List (String × β)}, (l.map Prod.fst).Nodup → (k, v) ∈ l →
      lookupLast k l = some v := by
  intro l
  induction l with
  | nil => intro _ h; simp at h
  | cons p rest ih =>
    intro hnd h
    simp only [List.map_cons, List.nodup_cons] at hnd
    rcases List.mem_cons.1 h with heq | hmem
    · have hk1 : k = p.1 := by rw [← heq]
      have hv : p.2 = v := by rw [← heq]
      have hres : lookupLast k rest = none :=
        lookupLast_eq_none_of_not_mem (by rw [hk1]; exact hnd.1)
      have hstep : lookupLast k (p :: rest) = if p.1 = k then some p.2 else none := by
        simp [lookupLast, hres]
      rw [hstep, if_pos hk1.symm, hv]
    · have := ih hnd.2 hmem
      simp [lookupLast, this]

/-! ### insertAll lemmas -/

theorem insertAll_nil_list {β : Type} (base : Dict β) : insertAll base [] = base := rfl

theorem insertAll_cons {β : Type} (base : Dict β) (p : String × β)
    (l : List (String × β)) :
    insertAll base (p :: l) = insertAll (dictInsert p.1 p.2 base) l := rfl

theorem dictGet?_insertAll {β : Type} (k : String) :
    ∀ (l : List (String × β)) (base : Dict β),
      dictGet? k (insertAll base l) =
        match lookupLast k l with
        | some v => some v
        | none => dictGet? k base := by
  intro l
  induction l with
  | nil => intro base; rfl
  | cons p rest ih =>
    intro base
    rw [insertAll_cons, ih]
    cases hrest : lookupLast k rest with
    | some v => simp [lookupLast, hrest]
    | none =>
      by_cases hp : p.1 = k
      · subst hp
        simp [lookupLast, hrest, dictGet?_dictInsert_self]
      · have hk : k ≠ p.1 := fun e => hp e.symm
        simp [lookupLast, hrest, hp, dictGet?_dictInsert_ne hk]

theorem mem_dictKeys_insertAll {β : Type} (a : String) :
    ∀ (l : List (String × β)) (base : Dict β),
      a ∈ dictKeys (insertAll base l) ↔ a ∈ dictKeys base ∨ a ∈ l.map Prod.fst := by
  intro l
  induction l with
  | nil => intro base; simp [insertAll]
  | cons p rest ih =>
    intro base
    rw [insertAll_cons, ih, mem_dictKeys_dictInsert]
    simp only [List.map_cons, List.mem_cons]
    tauto

theorem nodup_dictKeys_insertAll {β : Type} :
    ∀ (l : List (String × β)) (base : Dict β),
      (dictKeys base).Nodup → (dictKeys (insertAll base l)).Nodup := by
  intro l
  induction l with
  | nil => intro base h; exact h
  | cons p rest ih =>
    intro base h
    rw [insertAll_cons]
    exact ih _ (nodup_dictKeys_dictInsert p.1 p.2 base h)

theorem insertAll_eq_append {β : Type} :
    ∀ (l : List (String × β)) (base : Dict β), (l.map Prod.fst).Nodup →
      (∀ x ∈ l.map Prod.fst, x ∉ dictKeys base) → insertAll base l = base ++ l := by
  intro l
  induction l with
  | nil => intro base _ _; simp [insertAll]
  | cons p rest ih =>
    intro base hnd hdis
    simp only [List.map_cons, List.nodup_cons] at hnd
    have hp : p.1 ∉ dictKeys base := hdis p.1 (by simp)
    have hstep : dictInsert p.1 p.2 base = base ++ [p] :=
      dictInsert_append_of_not_mem p.2 hp
    have hdis' : ∀ x ∈ rest.map Prod.fst, x ∉ dictKeys (base ++ [p]) := by
      intro x hx
      simp only [dictKeys, List.map_append, List.mem_append, List.map_cons, List.map_nil,
        List.mem_singleton, List.not_mem_nil]
      push_neg
      refine ⟨?_, ?_⟩
      · have := hdis x (by simp [hx])
        simpa [dictKeys] using this
      · intro e
        exact hnd.1 (e ▸ hx)
    rw [insertAll_cons, hstep, ih (base ++ [p]) hnd.2 hdis', List.append_assoc]
    simp

theorem insertAll_nil_of_nodup {β : Type} {l : List (String × β)}
    (hnd : (l.map Prod.fst).Nodup) : insertAll [] l = l := by
  have := insertAll_eq_append l [] hnd (by simp [dictKeys])
  simpa using this

theorem insertAll_eq_self_of_get {β : Type} :
    ∀ (l : List (String × β)) (base : Dict β),
      (∀ p ∈ l, dictGet? p.1 base = some p.2) → insertAll base l = base := by
  intro l
  induction l with
  | nil => intro base _; rfl
  | cons p rest ih =>
    intro base h
    rw [insertAll_cons, dictInsert_eq_self_of_get (h p (by simp))]
    exact ih base fun q hq => h q (List.mem_cons_of_mem p hq)

/-! ### Lexicographic string order lemmas -/

theorem charsLe_refl : ∀ a : List Char, charsLe a a = true := by
  intro a
  induction a with
  | nil => rfl
  | cons x as ih => simp [charsLe, lt_irrefl, ih]

theorem charsLe_total : ∀ a b : List Char, charsLe a b = true ∨ charsLe b a = true := by
  intro a
  induction a with
  | nil => intro b; left; rfl
  | cons x as ih =>
    intro b
    cases b with
    | nil => right; rfl
    | cons y bs =>
      rcases lt_trichotomy x y with hlt | heq | hgt
      · left; simp [charsLe, hlt]
      · subst heq
        rcases ih bs with h | h
        · left; simp [charsLe, lt_irrefl, h]
        · right; simp [charsLe, lt_irrefl, h]
      · right; simp [charsLe, hgt]

theorem charsLe_trans : ∀ a b c : List Char,
    charsLe a b = true → charsLe b c = true → charsLe a c = true := by
  intro a
  induction a with
  | nil => intro b c _ _; rfl
  | cons x as ih =>
    intro b c hab hbc
    cases b with
    | nil => simp [charsLe] at hab
    | cons y bs =>
      cases c with
      | nil => simp [charsLe] at hbc
      | cons z cs =>
        by_cases hxy : x < y
        · by_cases hyz : y < z
          · simp [charsLe, lt_trans hxy hyz]
          · by_cases hzy : z < y
            · simp [charsLe, hyz, hzy] at hbc
            · have hyz' : y = z := le_antisymm (not_lt.1 hzy) (not_lt.1 hyz)
              subst hyz'
              simp [charsLe, hxy]
        · by_cases hyx : y < x
          · simp [charsLe, hxy, hyx] at hab
          · have hxy' : x = y := le_antisymm (not_lt.1 hyx) (not_lt.1 hxy)
            subst hxy'
            simp only [charsLe, if_neg (lt_irrefl x)] at hab
            by_cases hxz : x < z
            · simp [charsLe, hxz]
            · by_cases hzx : z < x
              · simp [charsLe, hxz, hzx] at hbc
              · simp only [charsLe, if_neg hxz, if_neg hzx] at hbc ⊢
                exact ih bs cs hab hbc

theorem charsLe_antisymm : ∀ a b : List Char,
    charsLe a b = true → charsLe b a = true → a = b := by
  intro a
  induction a with
  | nil =>
    intro b _ hba
    cases b with
    | nil => rfl
    | cons y bs => simp [charsLe] at hba
  | cons x as ih =>
    intro b hab hba
    cases b with
    | nil => simp [charsLe] at hab
    | cons y bs =>
      by_cases hxy : x < y
      · simp [charsLe, hxy, lt_asymm hxy] at hba
      · by_cases hyx : y < x
        · simp [charsLe, hxy, hyx] at hab
        · have hxy' : x = y := le_antisymm (not_lt.1 hyx) (not_lt.1 hxy)
          subst hxy'
          simp only [charsLe, if_neg (lt_irrefl x)] at hab hba
          rw [ih bs hab hba]

theorem strLe_refl (a : String) : strLe a a = true :=
  charsLe_refl a.data

theorem strLe_total (a b : String) : strLe a b = true ∨ strLe b a = true :=
  charsLe_total a.data b.data

theorem strLe_trans {a b c : String} (hab : strLe a b = true) (hbc : strLe b c = true) :
    strLe a c = true :=
  charsLe_trans a.data b.data c.data hab hbc

theorem strLe_antisymm {a b : String} (hab : strLe a b = true) (hba : strLe b a = true) :
    a = b :=
  String.ext (charsLe_antisymm a.data b.data hab hba)

theorem strLt_iff {a b : String} : strLt a b = true ↔ strLe a b = true ∧ a ≠ b := by
  constructor
  · intro h
    simp only [strLt, Bool.and_eq_true, Bool.not_eq_true'] at h
    refine ⟨h.1, fun e => ?_⟩
    subst e
    rw [strLe_refl] at h
    exact Bool.noConfusion h.2
  · intro ⟨hle, hne⟩
    simp only [strLt, Bool.and_eq_true, Bool.not_eq_true']
    refine ⟨hle, ?_⟩
    cases hba : strLe b a with
    | false => rfl
    | true => exact absurd (strLe_antisymm hle hba) hne

theorem strLt_asymm {a b : String} (h : strLt a b = true) : strLt b a = false := by
  rcases strLt_iff.1 h with ⟨hle, hne⟩
  cases hba : strLt b a with
  | false => rfl
  | true =>
    rcases strLt_iff.1 hba with ⟨hle', _⟩
    exact absurd (strLe_antisymm hle hle') hne

/-! ### Transformer lemmas -/

theorem transformStep_invalid {acc : RatesByDate} {o : Obs} (h : o.isValid = false) :
    transformStep acc o = acc := by
  rcases o with ⟨od, oc, ov⟩
  cases od with
  | none => rfl
  | some d =>
    cases oc with
    | none => rfl
    | some c =>
      cases ov with
      | none => rfl
      | some v =>
        simp only [Obs.isValid, truthyStr, truthyNum, Bool.and_eq_false_iff,
          decide_eq_false_iff_not, not_not] at h
        have hcond : d = "" ∨ c = "" ∨ v = 0 := by tauto
        simp only [transformStep, if_pos hcond]

theorem transformStep_valid {acc : RatesByDate} {d c : String} {v : ℚ}
    (hd : d ≠ "") (hc : c ≠ "") (hv : v ≠ 0) :
    transformStep acc ⟨some d, some c, some v⟩ =
      dictInsert d (dictInsert c v (dictGetD d acc [])) acc := by
  have hcond : ¬(d = "" ∨ c = "" ∨ v = 0) := by tauto
  simp only [transformStep, if_neg hcond]

theorem isValid_elim {o : Obs} (h : o.isValid = true) :
    ∃ d0 c0 v0, o = ⟨some d0, some c0, some v0⟩ ∧ d0 ≠ "" ∧ c0 ≠ "" ∧ v0 ≠ 0 := by
  rcases o with ⟨od, oc, ov⟩
  cases od with
  | none => simp [Obs.isValid, truthyStr] at h
  | some d =>
    cases oc with
    | none => simp [Obs.isValid, truthyStr] at h
    | some c =>
      cases ov with
      | none => simp [Obs.isValid, truthyStr, truthyNum] at h
      | some v =>
        simp only [Obs.isValid, truthyStr, truthyNum, Bool.and_eq_true,
          decide_eq_true_eq] at h
        exact ⟨d, c, v, rfl, h.1.1, h.1.2, h.2⟩

theorem rateAt_dictInsert (acc : RatesByDate) (d0 c0 : String) (v0 : ℚ) (d c : String) :
    rateAt (dictInsert d0 (dictInsert c0 v0 (dictGetD d0 acc [])) acc) d c =
      if d = d0 ∧ c = c0 then some v0 else rateAt acc d c := by
  by_cases hd : d = d0
  · subst hd
    rw [rateAt, dictGet?_dictInsert_self, Option.some_bind]
    by_cases hc : c = c0
    · subst hc
      rw [dictGet?_dictInsert_self, if_pos ⟨rfl, rfl⟩]
    · rw [dictGet?_dictInsert_ne hc, if_neg (fun hand => hc hand.2), rateAt]
      cases hacc : dictGet? d acc with
      | none => simp [dictGetD, hacc, dictGet?]
      | some rs => simp [dictGetD, hacc]
  · rw [rateAt, dictGet?_dictInsert_ne hd, if_neg (fun hand => hd hand.1), rateAt]

theorem rateAt_foldl_transformStep (l : List Obs) :
    ∀ (acc : RatesByDate) (d c : String),
      rateAt (l.foldl transformStep acc) d c =
        match lastValueFor d c l with
        | some v => some v
        | none => rateAt acc d c := by
  induction l with
  | nil => intro acc d c; rfl
  | cons o rest ih =>
    intro acc d c
    rw [List.foldl_cons, ih]
    cases hrest : lastValueFor d c rest with
    | some v => simp [lastValueFor, hrest]
    | none =>
      simp only [lastValueFor, hrest]
      cases hval : o.isValid with
      | false =>
        rw [transformStep_invalid hval]
        simp
      | true =>
        obtain ⟨d0, c0, v0, rfl, hd0, hc0, hv0⟩ := isValid_elim hval
        rw [transformStep_valid hd0 hc0 hv0, rateAt_dictInsert]
        by_cases hdc : d = d0 ∧ c = c0
        · obtain ⟨rfl, rfl⟩ := hdc
          rw [if_pos ⟨rfl, rfl⟩, if_pos ⟨rfl, rfl, rfl⟩]
        · rw [if_neg hdc, if_neg ?_]
          rintro ⟨_, hdd, hcc⟩
          exact hdc ⟨(Option.some.inj hdd).symm, (Option.some.inj hcc).symm⟩

theorem mem_dictInsert_elim {β : Type} {p : String × β} {k : String} {v : β} :
    ∀ {d : Dict β}, p ∈ dictInsert k v d → p ∈ d ∨ p = (k, v) := by
  intro d
  induction d with
  | nil =>
    intro h
    simp only [dictInsert, List.mem_singleton] at h
    right; exact h
  | cons q rest ih =>
    intro h
    by_cases hq : q.1 = k
    · simp only [dictInsert, if_pos hq] at h
      rcases List.mem_cons.1 h with h1 | h1
      · right; exact h1
      · left; exact List.mem_cons_of_mem q h1
    · simp only [dictInsert, if_neg hq] at h
      rcases List.mem_cons.1 h with h1 | h1
      · left
        rw [h1]
        exact List.mem_cons_self q rest
      · rcases ih h1 with h2 | h2
        · left; exact List.mem_cons_of_mem q h2
        · right; exact h2

theorem dictInsert_ne_nil {β : Type} (k : String) (v : β) (d : Dict β) :
    dictInsert k v d ≠ [] := by
  cases d with
  | nil => simp [dictInsert]
  | cons q rest => by_cases hq : q.1 = k <;> simp [dictInsert, hq]

theorem transform_values_invariant (l : List Obs) :
    ∀ acc : RatesByDate, (∀ q ∈ acc, q.2 ≠ ([] : RateSet)) →
      ∀ q ∈ l.foldl transformStep acc, q.2 ≠ ([] : RateSet) := by
  induction l with
  | nil => intro acc h; exact h
  | cons o rest ih =>
    intro acc h
    rw [List.foldl_cons]
    refine ih _ ?_
    intro q hq
    cases hval : o.isValid with
    | false =>
      rw [transformStep_invalid hval] at hq
      exact h q hq
    | true =>
      obtain ⟨d0, c0, v0, rfl, hd0, hc0, hv0⟩ := isValid_elim hval
      rw [transformStep_valid hd0 hc0 hv0] at hq
      rcases mem_dictInsert_elim hq with h1 | h1
      · exact h q h1
      · rw [h1]
        exact dictInsert_ne_nil c0 v0 _

/-! ### Merger lemmas -/

theorem nodup_dictKeys_existingByDate (E : List RateRecord) :
    (dictKeys (existingByDate E)).Nodup :=
  nodup_dictKeys_insertAll _ [] (by simp [dictKeys])

theorem nodup_dictKeys_mergedByDate (E : List RateRecord) (U : RatesByDate) :
    (dictKeys (mergedByDate E U)).Nodup :=
  nodup_dictKeys_insertAll _ _ (nodup_dictKeys_existingByDate E)

theorem dateDesc_trans : ∀ a b c : String × RateSet,
    dateDesc a b = true → dateDesc b c = true → dateDesc a c = true :=
  fun _ _ _ hab hbc => strLe_trans hbc hab

theorem dateDesc_total : ∀ a b : String × RateSet, (dateDesc a b || dateDesc b a) = true := by
  intro a b
  rcases strLe_total b.1 a.1 with h | h <;> simp [dateDesc, h]

theorem merge_sorted_le (E : List RateRecord) (U : RatesByDate) :
    List.Pairwise (fun p q => dateDesc p q = true)
      ((mergedByDate E U).mergeSort dateDesc) :=
  List.sorted_mergeSort dateDesc_trans dateDesc_total (mergedByDate E U)

theorem merge_sorted_keys_nodup (E : List RateRecord) (U : RatesByDate) :
    (dictKeys ((mergedByDate E U).mergeSort dateDesc)).Nodup := by
  have hperm : ((mergedByDate E U).mergeSort dateDesc).Perm (mergedByDate E U) :=
    List.mergeSort_perm _ _
  have hnd : (dictKeys (mergedByDate E U)).Nodup := nodup_dictKeys_mergedByDate E U
  simp only [dictKeys] at hnd ⊢
  exact ((hperm.map Prod.fst).nodup_iff).2 hnd

theorem merge_sorted_strict (E : List RateRecord) (U : RatesByDate) :
    List.Pairwise (fun p q : String × RateSet => strLt q.1 p.1 = true)
      ((mergedByDate E U).mergeSort dateDesc) := by
  have hle := merge_sorted_le E U
  have hnd := merge_sorted_keys_nodup E U
  have hne : List.Pairwise (fun p q : String × RateSet => p.1 ≠ q.1)
      ((mergedByDate E U).mergeSort dateDesc) := by
    simp only [dictKeys] at hnd
    exact List.pairwise_map.1 hnd
  refine (hle.and hne).imp ?_
  rintro a b ⟨h1, h2⟩
  exact strLt_iff.2 ⟨h1, fun e => h2 e.symm⟩

theorem merge_rates_pairwise (E : List RateRecord) (U : RatesByDate) :
    List.Pairwise (fun a b : RateRecord => strLt b.date a.date = true)
      (merge_rates E U) := by
  rw [merge_rates]
  exact List.pairwise_map.2 (merge_sorted_strict E U)

theorem merge_rates_dates_eq_keys (E : List RateRecord) (U : RatesByDate) :
    (merge_rates E U).map RateRecord.date =
      dictKeys ((mergedByDate E U).mergeSort dateDesc) := by
  rw [merge_rates, List.map_map]
  rfl

theorem merge_rates_dates_nodup (E : List RateRecord) (U : RatesByDate) :
    ((merge_rates E U).map RateRecord.date).Nodup := by
  rw [merge_rates_dates_eq_keys]
  exact merge_sorted_keys_nodup E U

theorem lastRatesFor_eq_lookupLast (d : String) (E : List RateRecord) :
    lastRatesFor d E = lookupLast d (E.map fun e => (e.date, e.rates)) := by
  induction E with
  | nil => rfl
  | cons e rest ih =>
    simp only [List.map_cons, lastRatesFor, lookupLast, ih]
    cases lookupLast d (List.map (fun e => (e.date, e.rates)) rest) with
    | some rs => rfl
    | none => rfl

theorem dictGet?_mergedByDate (E : List RateRecord) (U : RatesByDate) (d : String) :
    dictGet? d (mergedByDate E U) =
      match lookupLast d U with
      | some rs => some rs
      | none => lastRatesFor d E := by
  rw [mergedByDate, dictGet?_insertAll]
  cases lookupLast d U with
  | some rs => rfl
  | none =>
    rw [existingByDate, dictGet?_insertAll, lastRatesFor_eq_lookupLast]
    cases lookupLast d (E.map fun e => (e.date, e.rates)) with
    | some rs => rfl
    | none => rfl

theorem mem_merge_rates_of_get {E : List RateRecord} {U : RatesByDate} {d : String}
    {rs : RateSet} (h : dictGet? d (mergedByDate E U) = some rs) :
    RateRecord.mk d rs ∈ merge_rates E U := by
  have hmem : (d, rs) ∈ mergedByDate E U := mem_of_dictGet?_eq_some h
  have hmem2 : (d, rs) ∈ (mergedByDate E U).mergeSort dateDesc :=
    ((List.mergeSort_perm _ _).mem_iff).2 hmem
  rw [merge_rates]
  exact List.mem_map.2 ⟨(d, rs), hmem2, rfl⟩

theorem map_mk_map_pairs (E : List RateRecord) :
    (E.map fun e => (e.date, e.rates)).map
      (fun p : String × RateSet => RateRecord.mk p.1 p.2) = E := by
  rw [List.map_map]
  exact List.map_id E

theorem pairs_keys_eq_dates (M : List RateRecord) :
    (M.map fun e => (e.date, e.rates)).map Prod.fst = M.map RateRecord.date := by
  rw [List.map_map]
  rfl

theorem merge_rates_idem (E : List RateRecord) (U : RatesByDate)
    (hU : (U.map Prod.fst).Nodup) :
    merge_rates (merge_rates E U) U = merge_rates E U := by
  set M := merge_rates E U with hM
  have hnodupdates : (M.map RateRecord.date).Nodup := merge_rates_dates_nodup E U
  have hkeys : ((M.map fun e => (e.date, e.rates)).map Prod.fst).Nodup := by
    rw [pairs_keys_eq_dates]
    exact hnodupdates
  have hbase : existingByDate M = M.map fun e => (e.date, e.rates) := by
    rw [existingByDate]
    exact insertAll_nil_of_nodup hkeys
  have hget : ∀ p ∈ U, dictGet? p.1 (M.map fun e => (e.date, e.rates)) = some p.2 := by
    intro p hp
    have hlook : lookupLast p.1 U = some p.2 :=
      lookupLast_eq_some_of_mem_of_nodup hU (by simpa using hp)
    have hmerged : dictGet? p.1 (mergedByDate E U) = some p.2 := by
      rw [dictGet?_mergedByDate, hlook]
    have hmem : RateRecord.mk p.1 p.2 ∈ M := mem_merge_rates_of_get hmerged
    have hmem2 : (p.1, p.2) ∈ M.map fun e => (e.date, e.rates) :=
      List.mem_map.2 ⟨RateRecord.mk p.1 p.2, hmem, rfl⟩
    exact dictGet?_eq_some_of_mem_of_nodup (by simpa [dictKeys] using hkeys) hmem2
  have hmergedM : mergedByDate M U = M.map fun e => (e.date, e.rates) := by
    rw [mergedByDate, hbase]
    exact insertAll_eq_self_of_get U _ hget
  have hsortM : List.Pairwise (fun p q : String × RateSet => strLt q.1 p.1 = true)
      (M.map fun e => (e.date, e.rates)) :=
    List.pairwise_map.2 (merge_rates_pairwise E U)
  have hsortSorted : List.Pairwise (fun p q : String × RateSet => strLt q.1 p.1 = true)
      ((M.map fun e => (e.date, e.rates)).mergeSort dateDesc) := by
    rw [← hmergedM]
    exact merge_sorted_strict M U
  haveI : IsAntisymm (String × RateSet)
      (fun p q : String × RateSet => strLt q.1 p.1 = true) :=
    ⟨fun a b hab hba => absurd hba (by simp [strLt_asymm hab])⟩
  have hsorteq : (M.map fun e => (e.date, e.rates)).mergeSort dateDesc =
      M.map fun e => (e.date, e.rates) :=
    List.eq_of_perm_of_sorted (List.mergeSort_perm _ _) hsortSorted hsortM
  calc merge_rates M U
      = ((mergedByDate M U).mergeSort dateDesc).map
          (fun p => RateRecord.mk p.1 p.2) := rfl
    _ = ((M.map fun e => (e.date, e.rates)).mergeSort dateDesc).map
          (fun p => RateRecord.mk p.1 p.2) := by rw [hmergedM]
    _ = (M.map fun e => (e.date, e.rates)).map
          (fun p => RateRecord.mk p.1 p.2) := by rw [hsorteq]
    _ = M := map_mk_map_pairs M

/-! ### Claim theorems -/

/-- Claim C1: for every non-empty sequence of existing RateRecords whose dates
are unique (the RateTable invariant), merging with an empty updates mapping
returns exactly the existing records — a permutation of `existing`, each date
keeping its RateSet — re-sorted strictly descending by date (`strLt` is
Python's code-point-lexicographic string order). -/
theorem merge_identity_on_empty_updates (E : List RateRecord) (_hne : E ≠ [])
    (hnd : (E.map RateRecord.date).Nodup) :
    (merge_rates E []).Perm E ∧
      List.Pairwise (fun a b : RateRecord => strLt b.date a.date = true)
        (merge_rates E []) := by
  refine ⟨?_, merge_rates_pairwise E []⟩
  have hkeys : ((E.map fun e => (e.date, e.rates)).map Prod.fst).Nodup := by
    rw [pairs_keys_eq_dates]
    exact hnd
  have hbase : mergedByDate E [] = E.map fun e => (e.date, e.rates) := by
    rw [mergedByDate, insertAll_nil_list, existingByDate]
    exact insertAll_nil_of_nodup hkeys
  have hperm : ((mergedByDate E []).mergeSort dateDesc).Perm
      (E.map fun e => (e.date, e.rates)) := by
    rw [hbase]
    exact List.mergeSort_perm _ _
  have hmap := hperm.map (fun p : String × RateSet => RateRecord.mk p.1 p.2)
  rw [map_mk_map_pairs] at hmap
  exact hmap

theorem merge_identity_on_empty_updates_witness :
    ([⟨"2024-01-01", [("USD", (1 : ℚ))]⟩, ⟨"2024-01-02", [("GBP", 2)]⟩] :
        List RateRecord) ≠ [] ∧
      (([⟨"2024-01-01", [("USD", (1 : ℚ))]⟩, ⟨"2024-01-02", [("GBP", 2)]⟩] :
          List RateRecord).map RateRecord.date).Nodup ∧
      ((merge_rates [⟨"2024-01-01", [("USD", 1)]⟩, ⟨"2024-01-02", [("GBP", 2)]⟩]
            []).Perm
          [⟨"2024-01-01", [("USD", 1)]⟩, ⟨"2024-01-02", [("GBP", 2)]⟩] ∧
        List.Pairwise (fun a b : RateRecord => strLt b.date a.date = true)
          (merge_rates [⟨"2024-01-01", [("USD", 1)]⟩, ⟨"2024-01-02", [("GBP", 2)]⟩]
            [])) :=
  ⟨by decide, by decide,
    merge_identity_on_empty_updates _ (by decide) (by decide)⟩

/-- Claim C2: for every pair of inputs, the output of `merge_rates` has
pairwise-distinct dates and its records are strictly decreasing in
code-point-lexicographic date order (`strLt`), which for ISO 8601 dates is
descending chronological order. -/
theorem merge_output_dates_unique_and_descending (E : List RateRecord)
    (U : RatesByDate) :
    ((merge_rates E U).map RateRecord.date).Nodup ∧
      List.Pairwise (fun a b : RateRecord => strLt b.date a.date = true)
        (merge_rates E U) :=
  ⟨merge_rates_dates_nodup E U, merge_rates_pairwise E U⟩

/-- Claim C3: for every date bound in the updates mapping (unique keys, as a
Python dict has), the merged output contains the record carrying exactly the
update's whole RateSet for that date, and output dates are unique — so the
record for that date is that one, no field-level merge with the old RateSet
occurs, and currency codes the update lacks are absent for that date. -/
theorem merge_updates_whole_rateset_replacement (E : List RateRecord)
    (U : RatesByDate) (d : String) (rs : RateSet)
    (hU : (U.map Prod.fst).Nodup) (hmem : (d, rs) ∈ U) :
    RateRecord.mk d rs ∈ merge_rates E U ∧
      ((merge_rates E U).map RateRecord.date).Nodup := by
  refine ⟨?_, merge_rates_dates_nodup E U⟩
  have hlook : lookupLast d U = some rs := lookupLast_eq_some_of_mem_of_nodup hU hmem
  refine mem_merge_rates_of_get ?_
  rw [dictGet?_mergedByDate, hlook]

theorem merge_updates_whole_rateset_replacement_witness :
    (([("2024-01-01", [("USD", (11 : ℚ)/10), ("GBP", 9/10)])] :
        RatesByDate).map Prod.fst).Nodup ∧
      (("2024-01-01", [("USD", (11 : ℚ)/10), ("GBP", 9/10)]) ∈
        ([("2024-01-01", [("USD", (11 : ℚ)/10), ("GBP", 9/10)])] : RatesByDate)) ∧
      (RateRecord.mk "2024-01-01" [("USD", (11 : ℚ)/10), ("GBP", 9/10)] ∈
          merge_rates [⟨"2024-01-01", [("USD", 1)]⟩]
            [("2024-01-01", [("USD", 11/10), ("GBP", 9/10)])] ∧
        ((merge_rates [⟨"2024-01-01", [("USD", 1)]⟩]
              [("2024-01-01", [("USD", 11/10), ("GBP", 9/10)])]).map
            RateRecord.date).Nodup) :=
  ⟨by decide, by simp,
    merge_updates_whole_rateset_replacement _ _ _ _ (by decide) (by simp)⟩

/-- Claim C4: `transform_bsi_data` contributes nothing to the output for an
observation whose date, code or value is absent or falsy (zero value
included): dropping such an observation from anywhere in the input leaves the
output unchanged, and the function is total, so no error is ever raised.
In particular on the single observation `{date: null, code: "USD", value: 1.1}`
it yields the empty mapping. -/
theorem transform_skips_invalid_observations (o : Obs) (h : o.isValid = false) :
    (∀ l1 l2 : List Obs,
        transform_bsi_data (l1 ++ o :: l2) = transform_bsi_data (l1 ++ l2)) ∧
      transform_bsi_data [⟨none, some "USD", some (11/10)⟩] = ([] : RatesByDate) := by
  refine ⟨?_, rfl⟩
  intro l1 l2
  rw [transform_bsi_data, transform_bsi_data, List.foldl_append, List.foldl_append,
    List.foldl_cons, transformStep_invalid h]

theorem transform_skips_invalid_observations_witness :
    Obs.isValid ⟨none, some "USD", some (11/10)⟩ = false ∧
      transform_bsi_data ([⟨some "2024-01-01", some "GBP", some 2⟩] ++
          ⟨none, some "USD", some (11/10)⟩ :: [⟨some "2024-01-02", some "EUR", some 3⟩]) =
        transform_bsi_data ([⟨some "2024-01-01", some "GBP", some 2⟩] ++
          [⟨some "2024-01-02", some "EUR", some 3⟩]) :=
  ⟨by decide, (transform_skips_invalid_observations _ (by decide)).1 _ _⟩

/-- Claim C5: the transformer output maps date `d` and code `c` to exactly the
value of the LAST valid observation carrying that date and code in iteration
order (and to nothing when no such observation exists) — later occurrences
overwrite earlier ones. -/
theorem transform_last_occurrence_wins (l : List Obs) (d c : String) :
    rateAt (transform_bsi_data l) d c = lastValueFor d c l := by
  rw [transform_bsi_data, rateAt_foldl_transformStep]
  cases lastValueFor d c l with
  | some v => rfl
  | none => rfl

/-- Claim C6: if the existing input of `merge_rates` has several records with
the same date and that date is not overwritten by the updates, the output
keeps the RateSet of the LAST such record; earlier same-date records are
discarded (the output has unique dates). -/
theorem merge_existing_duplicate_dates_last_wins (E : List RateRecord)
    (U : RatesByDate) (d : String) (rs : RateSet)
    (hlast : lastRatesFor d E = some rs) (hdU : d ∉ U.map Prod.fst) :
    RateRecord.mk d rs ∈ merge_rates E U ∧
      ((merge_rates E U).map RateRecord.date).Nodup := by
  refine ⟨?_, merge_rates_dates_nodup E U⟩
  refine mem_merge_rates_of_get ?_
  rw [dictGet?_mergedByDate, lookupLast_eq_none_of_not_mem hdU]
  exact hlast

theorem merge_existing_duplicate_dates_last_wins_witness :
    lastRatesFor "2024-01-01"
        [⟨"2024-01-01", [("USD", (1 : ℚ))]⟩, ⟨"2024-01-01", [("USD", 9)]⟩] =
      some [("USD", (9 : ℚ))] ∧
      "2024-01-01" ∉ ([] : RatesByDate).map Prod.fst ∧
      (RateRecord.mk "2024-01-01" [("USD", (9 : ℚ))] ∈
          merge_rates [⟨"2024-01-01", [("USD", 1)]⟩, ⟨"2024-01-01", [("USD", 9)]⟩]
            [] ∧
        ((merge_rates [⟨"2024-01-01", [("USD", 1)]⟩, ⟨"2024-01-01", [("USD", 9)]⟩]
              []).map RateRecord.date).Nodup) :=
  ⟨by decide, by decide,
    merge_existing_duplicate_dates_last_wins _ _ _ _ (by decide) (by decide)⟩

/-- Claim C7: `merge_rates` is a pure function of its two inputs — in this
embedding it is a function, so two invocations on identical inputs are
definitionally equal — and it is idempotent under re-application of the same
updates mapping (unique keys, as a Python dict has):
`merge(merge(E, U), U) = merge(E, U)`. -/
theorem merge_pure_and_idempotent (E : List RateRecord) (U : RatesByDate)
    (hU : (U.map Prod.fst).Nodup) :
    merge_rates (merge_rates E U) U = merge_rates E U ∧
      merge_rates E U = merge_rates E U :=
  ⟨merge_rates_idem E U hU, rfl⟩

theorem merge_pure_and_idempotent_witness :
    (([("2024-01-02", [("USD", (2 : ℚ))]), ("2024-01-03", [("GBP", 3)])] :
        RatesByDate).map Prod.fst).Nodup ∧
      (merge_rates
          (merge_rates [⟨"2024-01-01", [("USD", 1)]⟩]
            [("2024-01-02", [("USD", 2)]), ("2024-01-03", [("GBP", 3)])])
          [("2024-01-02", [("USD", 2)]), ("2024-01-03", [("GBP", 3)])] =
        merge_rates [⟨"2024-01-01", [("USD", 1)]⟩]
          [("2024-01-02", [("USD", 2)]), ("2024-01-03", [("GBP", 3)])] ∧
      merge_rates [⟨"2024-01-01", [("USD", 1)]⟩]
          [("2024-01-02", [("USD", 2)]), ("2024-01-03", [("GBP", 3)])] =
        merge_rates [⟨"2024-01-01", [("USD", 1)]⟩]
          [("2024-01-02", [("USD", 2)]), ("2024-01-03", [("GBP", 3)])]) :=
  ⟨by decide, merge_pure_and_idempotent _ _ (by decide)⟩

/-- Claim C8: for a single observation with non-empty date, non-empty code and
non-zero value, the transformer yields exactly the singleton mapping
`{date: {code: value}}`. -/
theorem transform_valid_singleton (d c : String) (v : ℚ)
    (hd : d ≠ "") (hc : c ≠ "") (hv : v ≠ 0) :
    transform_bsi_data [⟨some d, some c, some v⟩] = [(d, [(c, v)])] := by
  rw [transform_bsi_data, List.foldl_cons, List.foldl_nil,
    transformStep_valid hd hc hv]
  rfl

theorem transform_valid_singleton_witness :
    ("2024-12-30" : String) ≠ "" ∧ ("USD" : String) ≠ "" ∧ (2 : ℚ) ≠ 0 ∧
      transform_bsi_data [⟨some "2024-12-30", some "USD", some 2⟩] =
        [("2024-12-30", [("USD", 2)])] :=
  ⟨by decide, by decide, by decide,
    transform_valid_singleton _ _ _ (by decide) (by decide) (by decide)⟩

/-- Claim C9: the set of dates in the output of `merge_rates` is exactly the
union of the dates of the existing records and the keys of the updates
mapping — no date from either input is dropped, and no new date appears. -/
theorem merge_dates_union (E : List RateRecord) (U : RatesByDate) (d : String) :
    d ∈ (merge_rates E U).map RateRecord.date ↔
      d ∈ E.map RateRecord.date ∨ d ∈ U.map Prod.fst := by
  rw [merge_rates_dates_eq_keys]
  have hperm : (dictKeys ((mergedByDate E U).mergeSort dateDesc)).Perm
      (dictKeys (mergedByDate E U)) := (List.mergeSort_perm _ _).map Prod.fst
  rw [hperm.mem_iff, mergedByDate, mem_dictKeys_insertAll, existingByDate,
    mem_dictKeys_insertAll]
  simp [dictKeys, pairs_keys_eq_dates]

/-- Claim C10: every date key in the transformer output carries a non-empty
RateSet: a date entry is only created when a valid (code, value) pair is
inserted under it. -/
theorem transform_no_empty_ratesets (l : List Obs) (p : String × RateSet)
    (hp : p ∈ transform_bsi_data l) : p.2 ≠ [] :=
  transform_values_invariant l []
    (fun q hq => absurd hq (List.not_mem_nil q)) p hp

theorem transform_no_empty_ratesets_witness :
    (("2024-01-01", [("USD", (2 : ℚ))]) : String × RateSet) ∈
        transform_bsi_data [Obs.mk (some "2024-01-01") (some "USD") (some 2)] ∧
      (("2024-01-01", [("USD", (2 : ℚ))]) : String × RateSet).2 ≠ [] :=
  ⟨by decide,
    transform_no_empty_ratesets [Obs.mk (some "2024-01-01") (some "USD") (some 2)]
      ("2024-01-01", [("USD", (2 : ℚ))]) (by decide)⟩

end ConvRates
